import Mathlib

/-!
Shallow embedding of the Merkle–Hellman knapsack cryptosystem of `src/main.py`
(class `KnapsackCrypto`), together with proofs of the specification's claims.

Modelling conventions:
* Python strings of `'0'`/`'1'` bits are modelled as `List Bool`.
* Python non-negative machinery (key material, ciphertext blocks, modular
  arithmetic) is modelled over `Nat`; the subset-sum solver, whose Python
  subtraction can go below zero, is modelled over `Int`.
* Python exceptions (`ValueError` on an invalid character, `KeyError` on a
  missing table entry, `ValueError` from `pow(r, -1, q)` when no modular
  inverse exists) are modelled by `Option`, `none` being the raised error.
* Calls to `random.randint(a, b)` are derandomized by threading explicit
  draw values: a draw `d : Nat` yields `a + d % (b - a + 1)`, so every value
  of the interval `[a, b]` is reachable and no other value is.
-/

set_option maxRecDepth 8000

namespace KnapsackCrypto

/-- The 27-symbol alphabet `self.alphabet = " " + "ABCDEFGHIJKLMNOPQRSTUVWXYZ"`. -/
def alphabet : List Char :=
  [' ', 'A', 'B', 'C', 'D', 'E', 'F', 'G', 'H', 'I', 'J', 'K', 'L', 'M',
   'N', 'O', 'P', 'Q', 'R', 'S', 'T', 'U', 'V', 'W', 'X', 'Y', 'Z']

/-- Dictionary `self.char_to_int = {char: i for i, char in enumerate(self.alphabet)}`:
association of each alphabet character with its index; absent key = `none`. -/
def char_to_int (c : Char) : Option Nat :=
  List.lookup c (alphabet.zip (List.range alphabet.length))

/-- Dictionary `self.int_to_char = {i: char for i, char in enumerate(self.alphabet)}`:
association of each index with its character; a missing key (a `KeyError` in
Python) is `none`. -/
def int_to_char (code : Nat) : Option Char :=
  List.lookup code ((List.range alphabet.length).zip alphabet)

/-- The code of a known-valid character (the value `self.char_to_int[char]`). -/
def codeOf (c : Char) : Nat :=
  (char_to_int c).getD 0

/-- Python `format(val, '05b')`: the 5-bit big-endian binary rendering of `val`.
All values fed to it by the code are character codes `≤ 26 < 32`, for which
Python's minimum-width format is exactly 5 bits. -/
def toBits5 (val : Nat) : List Bool :=
  [val.testBit 4, val.testBit 3, val.testBit 2, val.testBit 1, val.testBit 0]

/-- Python `int(chunk, 2)`: big-endian binary to natural number. -/
def fromBits (chunk : List Bool) : Nat :=
  chunk.foldl (fun acc bit => 2 * acc + (if bit then 1 else 0)) 0

/-- Method `KnapsackCrypto._text_to_bits`: uppercase each character, look it up in
`char_to_int` (raising on a missing character, modelled by `none`) and emit
its 5-bit code; concatenate in order. -/
def _text_to_bits : List Char → Option (List Bool)
  | [] => some []
  | char :: rest =>
    match char_to_int char.toUpper with
    | none => none
    | some val => Option.map (fun bits => toBits5 val ++ bits) (_text_to_bits rest)

/-- The dot product of the encryption loop: `sum(public_key[j] for j where
chunk[j] == '1')`, pairing bits with key entries positionally. -/
def dot : List Bool → List Nat → Nat
  | bit :: bits, k :: ks => (if bit then k else 0) + dot bits ks
  | _, _ => 0

/-- Structural loop behind `chunkList`, recursing on a fuel bound that the
wrapper instantiates with the list length (each step consumes at least one
element when `n > 0`, so the fuel never runs out on the wrapper's call). -/
def chunk_go (n : Nat) : Nat → List α → List (List α)
  | _, [] => []
  | 0, _ :: _ => []
  | fuel + 1, x :: xs =>
    if n = 0 then []
    else (x :: xs).take n :: chunk_go n fuel ((x :: xs).drop n)

/-- Chunking `bit_string[i:i+n]`: `for i in range(0, len(bit_string), n)`.
For `n = 0` Python's `range` raises; the claims only use `n > 0`. -/
def chunkList (n : Nat) (l : List α) : List (List α) :=
  chunk_go n l.length l

/-- Method `KnapsackCrypto.encrypt`: validate the characters, convert to bits,
zero-pad to a multiple of `n = len(public_key)`, and sum the public-key
entries selected by each `n`-bit chunk. -/
def encrypt (plaintext : List Char) (public_key : List Nat) : Option (List Nat) :=
  if plaintext.all (fun c => alphabet.contains c.toUpper) then
    match _text_to_bits plaintext with
    | none => none
    | some bits =>
      let n := public_key.length
      let remainder := bits.length % n
      let bit_string :=
        if remainder ≠ 0 then bits ++ List.replicate (n - remainder) false else bits
      some ((chunkList n bit_string).map (fun chunk => dot chunk public_key))
  else none

/-- The loop body of `KnapsackCrypto.subset_sum_problem`: walk the (already
reversed) sequence, take an element whenever `c_prime - w_element >= 0`,
and prepend the bit to the accumulated result. -/
def subset_go : List Int → Int → List Bool → List Bool
  | [], _, bit_result => bit_result
  | w_element :: rest, c_prime, bit_result =>
    if 0 ≤ c_prime - w_element then
      subset_go rest (c_prime - w_element) (true :: bit_result)
    else
      subset_go rest c_prime (false :: bit_result)

/-- Method `KnapsackCrypto.subset_sum_problem`: greedy subset-sum over `reversed(w)`,
bits prepended, so the returned bit at index `i` corresponds to `w[i]`. -/
def subset_sum_problem (w : List Int) (c_prime : Int) : List Bool :=
  subset_go w.reverse c_prime []

/-- Python `pow(r, -1, q)`: the modular inverse of `r` modulo `q`, `none` when Python
would raise (no inverse in `[0, q)`). -/
def modInverse (r q : Nat) : Option Nat :=
  (List.range q).find? (fun x => r * x % q == 1 % q)

/-- The decoding loop of `decrypt`: turn each 5-bit chunk into a character via
`int_to_char`; a missing entry (Python `KeyError`) aborts with `none`. -/
def decode_loop : List (List Bool) → Option (List Char)
  | [] => some []
  | chunk :: rest =>
    match int_to_char (fromBits chunk) with
    | none => none
    | some ch => Option.map (fun s => ch :: s) (decode_loop rest)

/-- Method `KnapsackCrypto.decrypt`: compute `r_prime = pow(r, -1, q)`, recover each
block's easy subset-sum target `c * r_prime % q`, solve it against `w`,
concatenate the bit chunks and decode them five bits at a time. -/
def decrypt (ciphertext : List Nat) (private_key : List Nat × Nat × Nat) :
    Option (List Char) :=
  match private_key with
  | (w, q, r) =>
    match modInverse r q with
    | none => none
    | some r_prime =>
      let bit_string :=
        (ciphertext.map
          (fun c => subset_sum_problem (w.map Int.ofNat) (Int.ofNat (c * r_prime % q)))).flatten
      decode_loop (chunkList 5 bit_string)

/-- The loop of `KnapsackCrypto._generate_superincreasing`: each step draws
`next_val = random.randint(current_sum + 1, current_sum + 100)`, modelled as
`current_sum + 1 + d % 100` for the threaded draw `d`. -/
def gen_go : List Nat → Nat → List Nat × Nat
  | [], current_sum => ([], current_sum)
  | d :: ds, current_sum =>
    let next_val := current_sum + 1 + d % 100
    let rest := gen_go ds (current_sum + next_val)
    (next_val :: rest.1, rest.2)

/-- Method `KnapsackCrypto._generate_superincreasing(n)` with `n = draws.length`
explicit random draws: returns the sequence and its running total. -/
def _generate_superincreasing (draws : List Nat) : List Nat × Nat :=
  gen_go draws 0

/-- Line 45 of the source: `beta = [(val * r) % q for val in w]`. -/
def public_key_of (w : List Nat) (r q : Nat) : List Nat :=
  w.map (fun val => val * r % q)

/-- The rejection-sampling loop for the multiplier:
`r = random.randint(2, q - 1)` redrawn `while math.gcd(r, q) != 1`; each
threaded draw `d` yields the candidate `2 + d % (q - 2)` (faithful for
`q ≥ 3`, which holds for every key with at least two knapsack items).
`none` models a draw list exhausted before a coprime candidate. -/
def pick_r (q : Nat) : List Nat → Option Nat
  | [] => none
  | d :: ds =>
    let r := 2 + d % (q - 2)
    if Nat.gcd r q = 1 then some r else pick_r q ds

/-- Method `KnapsackCrypto.generate_keys` with explicit random draws:
superincreasing `w`, modulus `q = random.randint(total_sum + 1, total_sum + 500)`,
coprime multiplier `r`, and public key `beta = [(val * r) % q for val in w]`. -/
def generate_keys (w_draws : List Nat) (q_draw : Nat) (r_draws : List Nat) :
    Option (List Nat × (List Nat × Nat × Nat)) :=
  let w := (_generate_superincreasing w_draws).1
  let total_sum := (_generate_superincreasing w_draws).2
  let q := total_sum + 1 + q_draw % 500
  match pick_r q r_draws with
  | none => none
  | some r => some (public_key_of w r q, (w, q, r))

/-- The sum Σ b[i]·w[i], i.e. the subset sum selected by a bit vector (integer version,
used to state the claims about `subset_sum_problem`). -/
def dotI : List Bool → List Int → Int
  | bit :: bits, k :: ks => (if bit then k else 0) + dotI bits ks
  | _, _ => 0

/-- The spec's superincreasing property: every element strictly exceeds the
sum of all elements before it. -/
@[reducible] def superincreasing (w : List Int) : Prop :=
  ∀ i, i < w.length → (w.take i).sum < w.getD i 0

/-- Reverse-order superincreasing: each element strictly exceeds the sum of
all the elements after it. `subset_sum_problem` walks `reversed(w)`, so the
inductions over the solver use this form; `superincreasing_iff_supRev` links
the two. -/
def SupRev : List Int → Prop
  | [] => True
  | x :: rest => rest.sum < x ∧ SupRev rest

/-! ### Basic facts about the alphabet codec -/

lemma alphabet_toUpper : ∀ c ∈ alphabet, c.toUpper = c := by decide

lemma char_to_int_isSome : ∀ c ∈ alphabet, (char_to_int c).isSome := by decide

lemma char_to_int_eq (c : Char) (hc : c ∈ alphabet) :
    char_to_int c = some (codeOf c) := by
  have h := char_to_int_isSome c hc
  unfold codeOf
  cases hcc : char_to_int c with
  | none => rw [hcc] at h; simp at h
  | some v => simp [hcc]

lemma codeOf_lt_32 : ∀ c ∈ alphabet, codeOf c < 32 := by decide

lemma int_to_char_codeOf : ∀ c ∈ alphabet, int_to_char (codeOf c) = some c := by decide

lemma fromBits_toBits5 : ∀ v < 32, fromBits (toBits5 v) = v := by decide

lemma toBits5_length (v : Nat) : (toBits5 v).length = 5 := rfl

/-! ### Length of the greedy solver's output -/

lemma subset_go_length (v : List Int) (t : Int) (acc : List Bool) :
    (subset_go v t acc).length = v.length + acc.length := by
  induction v generalizing t acc with
  | nil => simp [subset_go]
  | cons x rest ih =>
    simp only [subset_go]
    split
    · rw [ih]; simp [List.length_cons]; omega
    · rw [ih]; simp [List.length_cons]; omega

/-! ### Existence of the modular inverse computed by `decrypt` -/

lemma modInverse_spec (r q : Nat) (hq : 0 < q) (hgcd : Nat.gcd r q = 1) :
    ∃ x, modInverse r q = some x ∧ r * x % q = 1 % q := by
  have hex : ∃ y ∈ List.range q, r * y % q = 1 % q := by
    rcases Nat.lt_or_ge 1 q with hq2 | hq2
    · have hco : Nat.Coprime r q := hgcd
      obtain ⟨m, hm⟩ := Nat.exists_mul_emod_eq_one_of_coprime hco hq2
      refine ⟨m % q, List.mem_range.mpr (Nat.mod_lt m hq), ?_⟩
      have hmod : r * (m % q) % q = r * m % q := (Nat.mod_modEq m q).mul_left r
      rw [hmod, hm, Nat.mod_eq_of_lt hq2]
    · have hq1 : q = 1 := by omega
      subst hq1
      exact ⟨0, by decide, by simp⟩
  cases hfind : (List.range q).find? (fun x => r * x % q == 1 % q) with
  | none =>
    exfalso
    obtain ⟨y, hy, hp⟩ := hex
    have hnone := List.find?_eq_none.mp hfind y hy
    simp [hp] at hnone
  | some x =>
    refine ⟨x, hfind, ?_⟩
    have hx := List.find?_some hfind
    simpa using hx

/-! ### Successful runs of `_text_to_bits` and the `encrypt` error condition -/

lemma text_to_bits_some (pt : List Char) (h : ∀ c ∈ pt, c.toUpper ∈ alphabet) :
    _text_to_bits pt = some (pt.flatMap fun c => toBits5 (codeOf c.toUpper)) := by
  induction pt with
  | nil => simp [_text_to_bits]
  | cons c rest ih =>
    have hc : c.toUpper ∈ alphabet := h c (by simp)
    have hrest : ∀ x ∈ rest, x.toUpper ∈ alphabet := fun x hx => h x (by simp [hx])
    simp only [_text_to_bits, char_to_int_eq _ hc, ih hrest, List.flatMap_cons]
    rfl

lemma encrypt_none_iff (pt : List Char) (pk : List Nat) :
    encrypt pt pk = none ↔ ∃ c ∈ pt, c.toUpper ∉ alphabet := by
  by_cases hall : pt.all (fun c => alphabet.contains c.toUpper) = true
  · have hvalid : ∀ c ∈ pt, c.toUpper ∈ alphabet := by
      intro c hc
      have hcont := List.all_eq_true.mp hall c hc
      simpa using hcont
    rw [encrypt, if_pos hall, text_to_bits_some pt hvalid]
    constructor
    · intro h
      exact absurd h (by simp)
    · rintro ⟨c, hc, hnc⟩
      exact absurd (hvalid c hc) hnc
  · rw [encrypt, if_neg hall]
    simp only [true_iff, iff_true_intro rfl, true_iff]
    have hmem : ∃ c ∈ pt, ¬ alphabet.contains c.toUpper = true := by
      by_contra hcon
      push_neg at hcon
      exact hall (List.all_eq_true.mpr (fun c hc => by
        have := hcon c hc
        simpa using this))
    obtain ⟨c, hc, hcont⟩ := hmem
    exact ⟨c, hc, fun hmem2 => hcont (by simpa using hmem2)⟩

/-! ### Correctness of the greedy subset-sum solver -/

lemma SupRev_pos (v : List Int) (hv : SupRev v) : ∀ x ∈ v, 0 < x := by
  induction v with
  | nil => simp
  | cons a rest ih =>
    obtain ⟨hs, hrest⟩ := hv
    intro x hx
    rcases List.mem_cons.mp hx with h | h
    · subst h
      have hnn : 0 ≤ rest.sum :=
        List.sum_nonneg (fun y hy => le_of_lt (ih hrest y hy))
      omega
    · exact ih hrest x h

lemma dotI_nonneg (bs : List Bool) (v : List Int) (h : ∀ x ∈ v, 0 ≤ x) :
    0 ≤ dotI bs v := by
  induction bs generalizing v with
  | nil => cases v <;> simp [dotI]
  | cons c cs ih =>
    cases v with
    | nil => simp [dotI]
    | cons k ks =>
      have hk : 0 ≤ k := h k (by simp)
      have hks : ∀ x ∈ ks, 0 ≤ x := fun x hx => h x (by simp [hx])
      have := ih ks hks
      simp only [dotI]
      split <;> omega

lemma dotI_le_sum (bs : List Bool) (v : List Int) (h : ∀ x ∈ v, 0 ≤ x) :
    dotI bs v ≤ v.sum := by
  induction bs generalizing v with
  | nil =>
    cases v with
    | nil => simp [dotI]
    | cons k ks =>
      simp only [dotI, List.sum_cons]
      have hk : 0 ≤ k := h k (by simp)
      have hks : 0 ≤ ks.sum := List.sum_nonneg (fun x hx => h x (by simp [hx]))
      omega
  | cons c cs ih =>
    cases v with
    | nil => simp [dotI]
    | cons k ks =>
      have hk : 0 ≤ k := h k (by simp)
      have hks : ∀ x ∈ ks, 0 ≤ x := fun x hx => h x (by simp [hx])
      have := ih ks hks
      simp only [dotI, List.sum_cons]
      split <;> omega

lemma subset_go_spec (v : List Int) (hv : SupRev v) :
    ∀ (bits acc : List Bool), bits.length = v.length →
      subset_go v (dotI bits v) acc = bits.reverse ++ acc := by
  induction v with
  | nil =>
    intro bits acc hlen
    have hb : bits = [] := List.length_eq_zero.mp (by simpa using hlen)
    subst hb
    simp [subset_go, dotI]
  | cons x rest ih =>
    obtain ⟨hs, hrest⟩ := hv
    intro bits acc hlen
    have hpos : ∀ y ∈ rest, 0 ≤ y :=
      fun y hy => le_of_lt (SupRev_pos rest hrest y hy)
    cases bits with
    | nil => simp at hlen
    | cons c cs =>
      have hlen' : cs.length = rest.length := by simpa using hlen
      have hnn : 0 ≤ dotI cs rest := dotI_nonneg cs rest hpos
      have hle : dotI cs rest ≤ rest.sum := dotI_le_sum cs rest hpos
      cases c with
      | true =>
        simp only [dotI, if_pos trivial, subset_go]
        rw [if_pos (by omega)]
        have hsub : x + dotI cs rest - x = dotI cs rest := by ring
        rw [hsub, ih hrest cs (true :: acc) hlen']
        simp
      | false =>
        simp only [dotI, if_neg Bool.false_ne_true, subset_go, zero_add]
        rw [if_neg (by omega)]
        rw [ih hrest cs (false :: acc) hlen']
        simp

lemma dotI_cons (bit : Bool) (bits : List Bool) (k : Int) (ks : List Int) :
    dotI (bit :: bits) (k :: ks) = (if bit then k else 0) + dotI bits ks := rfl

lemma superincreasing_concat (ys : List Int) (x : Int) :
    superincreasing (ys ++ [x]) ↔ superincreasing ys ∧ ys.sum < x := by
  constructor
  · intro h
    refine ⟨fun i hi => ?_, ?_⟩
    · have h2 := h i (by simp; omega)
      rw [List.take_append_of_le_length (le_of_lt hi)] at h2
      rwa [List.getD_append ys [x] 0 i hi] at h2
    · have h2 := h ys.length (by simp)
      rw [List.take_left, List.getD_append_right ys [x] 0 ys.length le_rfl] at h2
      simpa using h2
  · rintro ⟨h1, h2⟩ i hi
    rcases Nat.lt_or_ge i ys.length with hlt | hge
    · rw [List.take_append_of_le_length (le_of_lt hlt),
        List.getD_append ys [x] 0 i hlt]
      exact h1 i hlt
    · have hieq : i = ys.length := by
        simp only [List.length_append, List.length_cons, List.length_nil] at hi
        omega
      subst hieq
      rw [List.take_left, List.getD_append_right ys [x] 0 ys.length le_rfl]
      simpa using h2

lemma superincreasing_iff_supRev (w : List Int) :
    superincreasing w ↔ SupRev w.reverse := by
  induction w using List.reverseRecOn with
  | nil =>
    simp only [List.reverse_nil, SupRev, iff_true]
    intro i hi
    simp at hi
  | append_singleton ys x ih =>
    rw [superincreasing_concat, List.reverse_append]
    have hrw : ([x] : List Int).reverse ++ ys.reverse = x :: ys.reverse := by simp
    rw [hrw]
    show superincreasing ys ∧ ys.sum < x ↔ ys.reverse.sum < x ∧ SupRev ys.reverse
    rw [ih, List.sum_reverse]
    tauto

lemma dotI_concat (bs : List Bool) (ks : List Int) (b : Bool) (k : Int)
    (h : bs.length = ks.length) :
    dotI (bs ++ [b]) (ks ++ [k]) = dotI bs ks + (if b then k else 0) := by
  induction bs generalizing ks with
  | nil =>
    cases ks with
    | nil => simp [dotI, dotI_cons]
    | cons k0 ks0 => simp at h
  | cons c cs ih =>
    cases ks with
    | nil => simp at h
    | cons k0 ks0 =>
      rw [List.cons_append, List.cons_append, dotI_cons, dotI_cons,
        ih ks0 (by simpa using h)]
      ring

lemma dotI_reverse (bs : List Bool) (ks : List Int) (h : bs.length = ks.length) :
    dotI bs.reverse ks.reverse = dotI bs ks := by
  induction bs generalizing ks with
  | nil =>
    cases ks with
    | nil => simp
    | cons k0 ks0 => simp at h
  | cons c cs ih =>
    cases ks with
    | nil => simp at h
    | cons k0 ks0 =>
      have h' : cs.length = ks0.length := by simpa using h
      simp only [List.reverse_cons]
      rw [dotI_concat _ _ _ _ (by simp [h']), ih ks0 h']
      simp only [dotI]
      ring

/-- Main solver lemma: on a superincreasing sequence, the greedy solver
returns exactly the bit vector that generated the target, bit `i`
corresponding to `w[i]`. -/
lemma subset_sum_problem_eq (w : List Int) (b : List Bool)
    (hw : superincreasing w) (hb : b.length = w.length) :
    subset_sum_problem w (dotI b w) = b := by
  unfold subset_sum_problem
  have hrev : SupRev w.reverse := (superincreasing_iff_supRev w).mp hw
  have hlen : b.reverse.length = w.reverse.length := by simp [hb]
  rw [← dotI_reverse b w hb, subset_go_spec w.reverse hrev b.reverse [] hlen]
  simp

/-! ### The trapdoor property -/

lemma dot_le_sum (b : List Bool) (w : List Nat) : dot b w ≤ w.sum := by
  induction b generalizing w with
  | nil => cases w <;> simp [dot]
  | cons x bs ih =>
    cases w with
    | nil => simp [dot]
    | cons v ks =>
      simp only [dot, List.sum_cons]
      have := ih ks
      split <;> omega

lemma dot_map_mod (b : List Bool) (w : List Nat) (r q : Nat) :
    dot b (w.map fun val => val * r % q) ≡ dot b w * r [MOD q] := by
  induction b generalizing w with
  | nil => cases w <;> simp [dot, Nat.ModEq.refl]
  | cons x bs ih =>
    cases w with
    | nil => simp [dot, Nat.ModEq.refl]
    | cons v ks =>
      simp only [List.map_cons, dot]
      have h1 : (if x then v * r % q else 0) ≡ (if x then v else 0) * r [MOD q] := by
        cases x
        · simp [Nat.ModEq.refl]
        · simpa using (Nat.mod_modEq (v * r) q)
      calc (if x then v * r % q else 0) + dot bs (ks.map fun val => val * r % q)
          ≡ (if x then v else 0) * r + dot bs ks * r [MOD q] := h1.add (ih ks)
        _ = ((if x then v else 0) + dot bs ks) * r := by ring

/-- Core trapdoor computation: multiplying a public-key inner product by an
inverse of `r` modulo `q` recovers the private inner product exactly,
because the latter is below `q`. -/
lemma trapdoor_eq (w : List Nat) (q r r_inv : Nat) (b : List Bool)
    (hq : w.sum < q) (hinv : r * r_inv % q = 1 % q) :
    dot b (public_key_of w r q) * r_inv % q = dot b w := by
  have h1 : dot b (public_key_of w r q) ≡ dot b w * r [MOD q] := dot_map_mod b w r q
  have h3 : r * r_inv ≡ 1 [MOD q] := hinv
  have h5 : dot b (public_key_of w r q) * r_inv ≡ dot b w [MOD q] := by
    calc dot b (public_key_of w r q) * r_inv
        ≡ dot b w * r * r_inv [MOD q] := h1.mul_right r_inv
      _ = dot b w * (r * r_inv) := by ring
      _ ≡ dot b w * 1 [MOD q] := h3.mul_left _
      _ = dot b w := by ring
  have h6 : dot b (public_key_of w r q) * r_inv % q = dot b w % q := h5
  rw [h6, Nat.mod_eq_of_lt (lt_of_le_of_lt (dot_le_sum b w) hq)]

/-! ### The key generator -/

lemma gen_go_length (ds : List Nat) (s : Nat) :
    (gen_go ds s).1.length = ds.length := by
  induction ds generalizing s with
  | nil => simp [gen_go]
  | cons d ds ih => simp [gen_go, ih]

lemma gen_go_snd (ds : List Nat) (s : Nat) :
    (gen_go ds s).2 = s + (gen_go ds s).1.sum := by
  induction ds generalizing s with
  | nil => simp [gen_go]
  | cons d ds ih =>
    simp only [gen_go, List.sum_cons]
    rw [ih]
    ring

lemma gen_go_sup (ds : List Nat) (s : Nat) :
    ∀ i < (gen_go ds s).1.length,
      s + ((gen_go ds s).1.take i).sum < (gen_go ds s).1.getD i 0 := by
  induction ds generalizing s with
  | nil => intro i hi; simp [gen_go] at hi
  | cons d ds ih =>
    intro i hi
    match i with
    | 0 => simp [gen_go]; omega
    | Nat.succ j =>
      have hj : j < (gen_go ds (s + (s + 1 + d % 100))).1.length := by
        have := gen_go_length ds (s + (s + 1 + d % 100))
        have hlen := gen_go_length (d :: ds) s
        simp [gen_go_length] at hi ⊢
        omega
      have hrec := ih (s + (s + 1 + d % 100)) j hj
      simp only [gen_go, List.take_succ_cons, List.sum_cons, List.getD_cons_succ]
      omega

lemma gen_go_pos (ds : List Nat) (s : Nat) :
    ∀ x ∈ (gen_go ds s).1, 0 < x := by
  induction ds generalizing s with
  | nil => simp [gen_go]
  | cons d ds ih =>
    intro x hx
    simp only [gen_go, List.mem_cons] at hx
    rcases hx with h | h
    · omega
    · exact ih (s + (s + 1 + d % 100)) x h

lemma pick_r_gcd (q : Nat) (ds : List Nat) (r : Nat)
    (h : pick_r q ds = some r) : Nat.gcd r q = 1 := by
  induction ds with
  | nil => simp [pick_r] at h
  | cons d ds ih =>
    rw [pick_r] at h
    split at h
    · injection h with h
      subst h
      assumption
    · exact ih h

lemma generate_keys_spec (wds : List Nat) (qd : Nat) (rds : List Nat)
    (pk w : List Nat) (q r : Nat)
    (h : generate_keys wds qd rds = some (pk, (w, q, r))) :
    w = (_generate_superincreasing wds).1 ∧ w.sum < q ∧ Nat.gcd r q = 1 ∧
    pk = public_key_of w r q ∧ w.length = wds.length := by
  unfold generate_keys at h
  simp only [] at h
  cases hpick : pick_r ((_generate_superincreasing wds).2 + 1 + qd % 500) rds with
  | none => rw [hpick] at h; simp at h
  | some r0 =>
    rw [hpick] at h
    simp only [Option.some.injEq, Prod.mk.injEq] at h
    obtain ⟨hpk, hw, hq, hr⟩ := h
    subst hw hq hr hpk
    refine ⟨rfl, ?_, pick_r_gcd _ _ _ hpick, rfl, ?_⟩
    · have := gen_go_snd wds 0
      unfold _generate_superincreasing
      omega
    · exact gen_go_length wds 0

/-! ### Chunking and decoding lemmas for the round trip -/

lemma chunk_go_nil (n fuel : Nat) : chunk_go n fuel ([] : List α) = [] := by
  cases fuel <;> rfl

lemma chunk_go_fuel (n : Nat) :
    ∀ (fuel fuel' : Nat) (l : List α), l.length ≤ fuel → l.length ≤ fuel' →
      chunk_go n fuel l = chunk_go n fuel' l := by
  intro fuel
  induction fuel with
  | zero =>
    intro fuel' l hl hl'
    have : l = [] := List.length_eq_zero.mp (by omega)
    subst this
    simp [chunk_go_nil]
  | succ f ih =>
    intro fuel' l hl hl'
    cases l with
    | nil => simp [chunk_go_nil]
    | cons x xs =>
      cases fuel' with
      | zero => simp at hl'
      | succ f' =>
        rw [chunk_go, chunk_go]
        by_cases hn : n = 0
        · simp [hn]
        · rw [if_neg hn, if_neg hn]
          congr 1
          exact ih f' ((x :: xs).drop n)
            (by simp only [List.length_drop, List.length_cons] at hl ⊢; omega)
            (by simp only [List.length_drop, List.length_cons] at hl' ⊢; omega)

lemma chunkList_cons_eq (n : Nat) (hn : 0 < n) (l : List α) (hne : l ≠ []) :
    chunkList n l = l.take n :: chunkList n (l.drop n) := by
  cases l with
  | nil => exact absurd rfl hne
  | cons x xs =>
    show chunk_go n (xs.length + 1) (x :: xs) = _
    rw [chunk_go, if_neg (Nat.pos_iff_ne_zero.mp hn)]
    congr 1
    exact chunk_go_fuel n xs.length ((x :: xs).drop n).length ((x :: xs).drop n)
      (by simp only [List.length_drop, List.length_cons]; omega) le_rfl

lemma chunkList_flatten (n : Nat) (hn : 0 < n) (l : List α) :
    (chunkList n l).flatten = l := by
  cases hl : l with
  | nil => simp [chunkList, chunk_go_nil]
  | cons x xs =>
    rw [← hl, chunkList_cons_eq n hn l (by rw [hl]; simp), List.flatten_cons,
      chunkList_flatten n hn (l.drop n), List.take_append_drop]
termination_by l.length
decreasing_by
  rw [hl]
  simp only [List.length_drop, List.length_cons]
  omega

lemma chunkList_length_mem (n : Nat) (hn : 0 < n) (l : List α)
    (hdvd : n ∣ l.length) : ∀ c ∈ chunkList n l, c.length = n := by
  cases hl : l with
  | nil => simp [chunkList, chunk_go_nil]
  | cons x xs =>
    rw [← hl, chunkList_cons_eq n hn l (by rw [hl]; simp)]
    intro c hc
    rcases List.mem_cons.mp hc with h | h
    · subst h
      obtain ⟨k, hk⟩ := hdvd
      have hk1 : 1 ≤ k := by
        rcases Nat.eq_zero_or_pos k with h0 | h0
        · subst h0; rw [hl] at hk; simp at hk
        · exact h0
      rw [List.length_take]
      have : n ≤ l.length := by
        calc n = n * 1 := (Nat.mul_one n).symm
          _ ≤ n * k := Nat.mul_le_mul_left n hk1
          _ = l.length := hk.symm
      omega
    · refine chunkList_length_mem n hn (l.drop n) ?_ c h
      obtain ⟨k, hk⟩ := hdvd
      exact ⟨k - 1, by rw [List.length_drop, hk, Nat.mul_sub_one]⟩
termination_by l.length
decreasing_by
  rw [hl]
  simp only [List.length_drop, List.length_cons]
  omega

lemma chunkList_append (n : Nat) (hn : 0 < n) (a b : List α)
    (hdvd : n ∣ a.length) : chunkList n (a ++ b) = chunkList n a ++ chunkList n b := by
  cases ha : a with
  | nil => simp [chunkList, chunk_go_nil]
  | cons x xs =>
    rw [← ha]
    have hlen : n ≤ a.length := by
      obtain ⟨k, hk⟩ := hdvd
      have hk1 : 1 ≤ k := by
        rcases Nat.eq_zero_or_pos k with h0 | h0
        · subst h0; rw [ha] at hk; simp at hk
        · exact h0
      calc n = n * 1 := (Nat.mul_one n).symm
        _ ≤ n * k := Nat.mul_le_mul_left n hk1
        _ = a.length := hk.symm
    have hne : a ++ b ≠ [] := by rw [ha]; simp
    rw [chunkList_cons_eq n hn (a ++ b) hne,
      chunkList_cons_eq n hn a (by rw [ha]; simp),
      List.take_append_of_le_length hlen,
      List.drop_append_of_le_length hlen]
    rw [chunkList_append n hn (a.drop n) b
      (by obtain ⟨k, hk⟩ := hdvd
          exact ⟨k - 1, by rw [List.length_drop, hk, Nat.mul_sub_one]⟩)]
    simp
termination_by a.length
decreasing_by
  rw [ha]
  simp only [List.length_drop, List.length_cons]
  omega

lemma chunkList_of_length_eq (n : Nat) (hn : 0 < n) (l : List α)
    (hlen : l.length = n) : chunkList n l = [l] := by
  have hne : l ≠ [] := by
    intro h
    subst h
    simp at hlen
    omega
  rw [chunkList_cons_eq n hn l hne, ← hlen, List.take_length, List.drop_length]
  simp [chunkList, chunk_go_nil]

lemma chunkList_flatMap (n : Nat) (hn : 0 < n) (f : α → List β)
    (hf : ∀ c, (f c).length = n) (l : List α) :
    chunkList n (l.flatMap f) = l.map f := by
  induction l with
  | nil => simp [chunkList, chunk_go_nil]
  | cons c rest ih =>
    rw [List.flatMap_cons, chunkList_append n hn (f c) _ (by rw [hf c]),
      chunkList_of_length_eq n hn (f c) (hf c), ih]
    simp

lemma chunkList_replicate_false (k : Nat) :
    chunkList 5 (List.replicate (5 * k) (false : Bool)) =
      List.replicate k (List.replicate 5 false) := by
  induction k with
  | zero => simp [chunkList, chunk_go_nil]
  | succ j ih =>
    have hsplit : 5 * (j + 1) = 5 + 5 * j := by ring
    rw [hsplit, List.replicate_add,
      chunkList_append 5 (by omega) _ _ (by simp),
      chunkList_of_length_eq 5 (by omega) _ (by simp), ih]
    rfl

lemma decode_loop_append (xs ys : List (List Bool)) (s1 s2 : List Char)
    (h1 : decode_loop xs = some s1) (h2 : decode_loop ys = some s2) :
    decode_loop (xs ++ ys) = some (s1 ++ s2) := by
  induction xs generalizing s1 with
  | nil =>
    simp only [decode_loop, Option.some.injEq] at h1
    subst h1
    simpa using h2
  | cons chunk rest ih =>
    rw [decode_loop] at h1
    cases hch : int_to_char (fromBits chunk) with
    | none => rw [hch] at h1; simp at h1
    | some ch =>
      rw [hch] at h1
      cases hrest : decode_loop rest with
      | none => rw [hrest] at h1; simp at h1
      | some s0 =>
        rw [hrest] at h1
        have h1c : ch :: s0 = s1 := by simpa using h1
        rw [List.cons_append, decode_loop, hch, ih s0 hrest]
        simp [← h1c]

lemma decode_loop_map_alphabet (pt : List Char) (h : ∀ c ∈ pt, c ∈ alphabet) :
    decode_loop (pt.map fun c => toBits5 (codeOf c)) = some pt := by
  induction pt with
  | nil => simp [decode_loop]
  | cons c rest ih =>
    have hc : c ∈ alphabet := h c (by simp)
    have hfrom : fromBits (toBits5 (codeOf c)) = codeOf c :=
      fromBits_toBits5 (codeOf c) (codeOf_lt_32 c hc)
    rw [List.map_cons, decode_loop, hfrom, int_to_char_codeOf c hc,
      ih (fun x hx => h x (by simp [hx]))]
    rfl

lemma decode_loop_replicate_space (k : Nat) :
    decode_loop (List.replicate k (List.replicate 5 false)) =
      some (List.replicate k ' ') := by
  induction k with
  | zero => simp [decode_loop]
  | succ j ih =>
    rw [List.replicate_succ, decode_loop]
    have h0 : int_to_char (fromBits (List.replicate 5 false)) = some ' ' := by decide
    rw [h0, ih, List.replicate_succ]
    rfl

/-! ### Cast lemmas from the `Nat` pipeline to the `Int` solver -/

lemma dotI_ofNat (b : List Bool) (w : List Nat) :
    dotI b (w.map Int.ofNat) = Int.ofNat (dot b w) := by
  induction b generalizing w with
  | nil => cases w <;> simp [dotI, dot]
  | cons c cs ih =>
    cases w with
    | nil => simp [dotI, dot]
    | cons v ks =>
      rw [List.map_cons, dotI_cons]
      show _ = Int.ofNat ((if c then v else 0) + dot cs ks)
      rw [ih ks]
      cases c <;> simp [Int.ofNat_add]

lemma sum_map_ofNat (l : List Nat) : (l.map Int.ofNat).sum = Int.ofNat l.sum := by
  induction l with
  | nil => simp
  | cons x xs ih => simp [ih, Int.ofNat_add]

lemma superincreasing_ofNat (w : List Nat)
    (h : ∀ i < w.length, (w.take i).sum < w.getD i 0) :
    superincreasing (w.map Int.ofNat) := by
  intro i hi
  rw [List.length_map] at hi
  have hnat := h i hi
  rw [← List.map_take, sum_map_ofNat]
  have hgetD : (w.map Int.ofNat).getD i 0 = Int.ofNat (w.getD i 0) := by
    rw [show (0 : Int) = Int.ofNat 0 from rfl, List.getD_map]
  rw [hgetD]
  exact Int.ofNat_lt.mpr hnat

lemma flatMap_toBits5_length (pt : List Char) :
    (pt.flatMap fun c => toBits5 (codeOf c)).length = 5 * pt.length := by
  induction pt with
  | nil => simp
  | cons c rest ih =>
    rw [List.flatMap_cons, List.length_append, ih, toBits5_length]
    simp
    omega

lemma flatMap_toUpper_eq (l : List Char) (hl : ∀ c ∈ l, c ∈ alphabet) :
    (l.flatMap fun c => toBits5 (codeOf c.toUpper)) =
      l.flatMap fun c => toBits5 (codeOf c) := by
  induction l with
  | nil => rfl
  | cons a as ih =>
    rw [List.flatMap_cons, List.flatMap_cons, alphabet_toUpper a (hl a (by simp)),
      ih (fun x hx => hl x (by simp [hx]))]

/-! ### Claim theorems: C1 to C10 -/

/-- C6: every private sequence produced by `_generate_superincreasing` is
strictly superincreasing — all entries positive and each entry exceeding the
sum of all earlier entries — and the second component of the returned pair
equals the sum of the sequence. -/
theorem generate_superincreasing_invariant (draws : List Nat) :
    (∀ i < (_generate_superincreasing draws).1.length,
      ((_generate_superincreasing draws).1.take i).sum <
        (_generate_superincreasing draws).1.getD i 0) ∧
    (∀ x ∈ (_generate_superincreasing draws).1, 0 < x) ∧
    (_generate_superincreasing draws).2 = (_generate_superincreasing draws).1.sum := by
  refine ⟨fun i hi => ?_, gen_go_pos draws 0, ?_⟩
  · have h := gen_go_sup draws 0 i hi
    simpa using h
  · have h := gen_go_snd draws 0
    simpa using h

theorem generate_superincreasing_invariant_witness :
    ((_generate_superincreasing [0, 0]).1.take 1).sum <
      (_generate_superincreasing [0, 0]).1.getD 1 0 :=
  (generate_superincreasing_invariant [0, 0]).1 1 (by decide)

/-- C1: for every plaintext over the space/A–Z alphabet and every key pair
generated by `generate_keys` with block size `n` a positive multiple of 5,
decrypting the encryption of the plaintext yields the plaintext padded on
the right with spaces to a length that is a multiple of `n/5` characters. -/
theorem encrypt_decrypt_round_trip
    (pt : List Char) (w_draws r_draws : List Nat) (q_draw : Nat)
    (pk w : List Nat) (q r n : Nat)
    (hchars : ∀ c ∈ pt, c ∈ alphabet)
    (hn : n = w_draws.length) (hpos : 0 < n) (hmul : n % 5 = 0)
    (hkeys : generate_keys w_draws q_draw r_draws = some (pk, (w, q, r))) :
    ∃ (ct : List Nat) (k : Nat),
      encrypt pt pk = some ct ∧
      decrypt ct (w, q, r) = some (pt ++ List.replicate k ' ') ∧
      (pt.length + k) % (n / 5) = 0 := by
  obtain ⟨hwgen, hsum, hgcd, hpk, hwlen⟩ :=
    generate_keys_spec w_draws q_draw r_draws pk w q r hkeys
  have hwn : w.length = n := by rw [hwlen, hn]
  have hpklen : pk.length = n := by rw [hpk, public_key_of, List.length_map, hwn]
  obtain ⟨m, hm⟩ : ∃ m, n = 5 * m := ⟨n / 5, by omega⟩
  have hsup : ∀ i < w.length, (w.take i).sum < w.getD i 0 := by
    rw [hwgen]
    intro i hi
    have h := gen_go_sup w_draws 0 i (by simpa using hi)
    simpa using h
  -- the encryption side
  have hup : ∀ c ∈ pt, c.toUpper ∈ alphabet := by
    intro c hc
    rw [alphabet_toUpper c (hchars c hc)]
    exact hchars c hc
  have hall : pt.all (fun c => alphabet.contains c.toUpper) = true :=
    List.all_eq_true.mpr (fun c hc => by simpa using hup c hc)
  have htb : _text_to_bits pt = some (pt.flatMap fun c => toBits5 (codeOf c)) := by
    rw [text_to_bits_some pt hup, flatMap_toUpper_eq pt hchars]
  set bits := pt.flatMap (fun c => toBits5 (codeOf c)) with hbitsdef
  have hbitslen : bits.length = 5 * pt.length := flatMap_toBits5_length pt
  set p := if bits.length % n = 0 then 0 else n - bits.length % n with hpdef
  set padded := bits ++ List.replicate p false with hpaddeddef
  have henc : encrypt pt pk =
      some ((chunkList n padded).map (fun chunk => dot chunk pk)) := by
    rw [encrypt, if_pos hall, htb]
    simp only [hpklen, hpaddeddef]
    by_cases hr : bits.length % n = 0
    · rw [hpdef, if_pos hr]
      simp [hr]
    · rw [hpdef, if_neg hr]
      simp [hr]
  have hplen : padded.length = bits.length + p := by
    rw [hpaddeddef, List.length_append, List.length_replicate]
  have hdvd : n ∣ padded.length := by
    by_cases hr : bits.length % n = 0
    · rw [hplen, hpdef, if_pos hr]
      exact Nat.dvd_of_mod_eq_zero (by simpa using hr)
    · have hda := Nat.div_add_mod bits.length n
      have hrlt : bits.length % n < n := Nat.mod_lt _ hpos
      refine ⟨bits.length / n + 1, ?_⟩
      rw [hplen, hpdef, if_neg hr, Nat.mul_add, Nat.mul_one]
      omega
  have hchunklen : ∀ c ∈ chunkList n padded, c.length = n :=
    chunkList_length_mem n hpos padded hdvd
  obtain ⟨k, hk⟩ : ∃ k, p = 5 * k := by
    by_cases hr : bits.length % n = 0
    · exact ⟨0, by rw [hpdef, if_pos hr]⟩
    · refine ⟨m - pt.length % m, ?_⟩
      have hremeq : bits.length % n = 5 * (pt.length % m) := by
        rw [hbitslen, hm, Nat.mul_mod_mul_left]
      rw [hpdef, if_neg hr, hremeq, hm]
      omega
  refine ⟨(chunkList n padded).map (fun chunk => dot chunk pk), k, henc, ?_, ?_⟩
  · -- the decryption side
    obtain ⟨rinv, hrinv, hrinveq⟩ := modInverse_spec r q (by omega) hgcd
    simp only [decrypt, hrinv]
    have hid : ∀ chunk ∈ chunkList n padded,
        subset_sum_problem (w.map Int.ofNat)
          (Int.ofNat (dot chunk pk * rinv % q)) = chunk := by
      intro chunk hc
      have hclen : chunk.length = n := hchunklen chunk hc
      have htrap : dot chunk pk * rinv % q = dot chunk w := by
        rw [hpk]
        exact trapdoor_eq w q r rinv chunk hsum hrinveq
      rw [htrap, ← dotI_ofNat chunk w]
      exact subset_sum_problem_eq (w.map Int.ofNat) chunk
        (superincreasing_ofNat w hsup)
        (by rw [List.length_map, hclen, hwn])
    have hflat :
        ((chunkList n padded).map (fun chunk => dot chunk pk)).map
          (fun c => subset_sum_problem (w.map Int.ofNat)
            (Int.ofNat (c * rinv % q))) = chunkList n padded := by
      rw [List.map_map]
      have hcongr := List.map_congr_left
        (f := (fun c => subset_sum_problem (w.map Int.ofNat)
          (Int.ofNat (c * rinv % q))) ∘ (fun chunk => dot chunk pk))
        (g := id) (fun c hc => hid c hc)
      rw [hcongr, List.map_id]
    rw [hflat, chunkList_flatten n hpos padded, hpaddeddef, hk]
    rw [chunkList_append 5 (by omega) bits _ (by rw [hbitslen]; exact ⟨pt.length, rfl⟩),
      hbitsdef,
      chunkList_flatMap 5 (by omega) _ (fun c => toBits5_length (codeOf c)) pt,
      chunkList_replicate_false k]
    exact decode_loop_append _ _ pt (List.replicate k ' ')
      (decode_loop_map_alphabet pt hchars) (decode_loop_replicate_space k)
  · -- the padded length is a multiple of n/5 characters
    have hd5 : n / 5 = m := by
      rw [hm]
      exact Nat.mul_div_cancel_left m (by omega)
    rw [hd5]
    obtain ⟨c, hc⟩ := hdvd
    have h2 : 5 * pt.length + 5 * k = 5 * (m * c) := by
      rw [← hbitslen, ← hk, ← hplen, hc, hm, Nat.mul_assoc]
    have h3 : pt.length + k = m * c := by omega
    rw [h3]
    exact Nat.mul_mod_right m c

theorem encrypt_decrypt_round_trip_witness :
    ∃ (ct : List Nat) (k : Nat),
      encrypt ['A'] [3, 6, 12, 24, 16] = some ct ∧
      decrypt ct ([1, 2, 4, 8, 16], 32, 3) = some (['A'] ++ List.replicate k ' ') ∧
      (List.length ['A'] + k) % (5 / 5) = 0 :=
  encrypt_decrypt_round_trip ['A'] [0, 0, 0, 0, 0] [1] 0
    [3, 6, 12, 24, 16] [1, 2, 4, 8, 16] 32 3 5
    (by decide) (by decide) (by decide) (by decide) (by decide)

/-! ### Claim theorems: C2, C3, C4, C5, C7, C8, C9, C10 -/

/-- C3: for every superincreasing sequence `w` of positive integers and every
target `t` that is an exact subset sum of `w` (witnessed by the bit vector
`b`, with bit `i` corresponding to `w[i]`), `subset_sum_problem w t` returns
exactly `b`; uniqueness follows since every generating bit vector equals the
returned one. -/
theorem subset_sum_solver_correct (w : List Int) (t : Int) (b : List Bool)
    (hw : superincreasing w) (_hpos : ∀ x ∈ w, 0 < x)
    (hb : b.length = w.length) (ht : dotI b w = t) :
    subset_sum_problem w t = b := by
  subst ht
  exact subset_sum_problem_eq w b hw hb

theorem subset_sum_solver_correct_witness :
    subset_sum_problem ([1, 2] : List Int) 2 = [false, true] :=
  subset_sum_solver_correct [1, 2] 2 [false, true] (by decide) (by decide)
    (by decide) (by decide)

/-- C4 (counterexample): for the superincreasing `w = [1, 2]` and target
`t = 2`, the unique generating subset is `{2}` — the largest element of `w`
is part of it (`dotI [false, true] [1, 2] = 2`) — yet the bit the solver
returns at index 0 is `'0'`: the first character does not correspond to the
largest element, refuting the claim as stated. -/
theorem subset_sum_msb_counterexample :
    superincreasing ([1, 2] : List Int) ∧
    dotI [false, true] ([1, 2] : List Int) = 2 ∧
    subset_sum_problem ([1, 2] : List Int) 2 = [false, true] ∧
    (subset_sum_problem ([1, 2] : List Int) 2).getD 0 false = false ∧
    (subset_sum_problem ([1, 2] : List Int) 2).getD 1 false = true := by decide

/-- C4 (amended): the bit string returned by `subset_sum_problem` has length
`|w|`, and its bit at index `i` corresponds to element `w[i]`; in particular
its LAST character (not the first) is `'1'` exactly when the largest element
of an ascending superincreasing `w` is part of the subset summing to `t`. -/
theorem subset_sum_bit_order (w : List Int) (t : Int) (b : List Bool)
    (hw : superincreasing w) (hb : b.length = w.length) (ht : dotI b w = t) :
    (subset_sum_problem w t).length = w.length ∧
    (∀ i, (subset_sum_problem w t).getD i false = b.getD i false) ∧
    (subset_sum_problem w t).getLast? = b.getLast? := by
  subst ht
  rw [subset_sum_problem_eq w b hw hb]
  exact ⟨hb, fun i => rfl, rfl⟩

theorem subset_sum_bit_order_witness :
    (subset_sum_problem ([1, 2] : List Int) 2).length = ([1, 2] : List Int).length ∧
    (subset_sum_problem ([1, 2] : List Int) 2).getLast? = [false, true].getLast? :=
  ⟨(subset_sum_bit_order [1, 2] 2 [false, true] (by decide) (by decide) (by decide)).1,
   (subset_sum_bit_order [1, 2] 2 [false, true] (by decide) (by decide) (by decide)).2.2⟩

/-- C2: for every key pair whose components satisfy the invariants
`generate_keys` establishes (`q > sum(w)`, `gcd(r, q) = 1`,
`beta[i] = w[i]*r mod q`) and every bit vector of length `n`, multiplying the
ciphertext inner product by the modular inverse of `r` modulo `q` recovers
the subset sum over the private sequence exactly. -/
theorem trapdoor_correctness (w beta : List Nat) (q r r_inv : Nat) (b : List Bool)
    (_hlen : b.length = w.length) (hq : w.sum < q) (hgcd : Nat.gcd r q = 1)
    (hbeta : beta = public_key_of w r q) (hinv : modInverse r q = some r_inv) :
    dot b beta * r_inv % q = dot b w := by
  have hq0 : 0 < q := lt_of_le_of_lt (Nat.zero_le _) hq
  obtain ⟨x, hx, hxinv⟩ := modInverse_spec r q hq0 hgcd
  rw [hinv] at hx
  injection hx with hx
  subst hx
  rw [hbeta]
  exact trapdoor_eq w q r r_inv b hq hxinv

theorem trapdoor_correctness_witness :
    dot [true, false, true, false, true] (public_key_of [2, 3, 6, 13, 27] 31 59)
      * 40 % 59 = dot [true, false, true, false, true] [2, 3, 6, 13, 27] :=
  trapdoor_correctness [2, 3, 6, 13, 27] (public_key_of [2, 3, 6, 13, 27] 31 59)
    59 31 40 [true, false, true, false, true] (by decide) (by decide) (by decide)
    rfl (by decide)

/-- C7: `encrypt` raises the invalid-character error (modelled by `none`,
so no partial ciphertext is produced) exactly when the plaintext contains a
character whose uppercase form is outside space/A–Z; in particular
`encrypt("Hello, World!", publicKey)` errors for every public key. -/
theorem encrypt_invalid_character (pt : List Char) (pk : List Nat) :
    (encrypt pt pk = none ↔ ∃ c ∈ pt, c.toUpper ∉ alphabet) ∧
    encrypt (String.toList "Hello, World!") pk = none :=
  ⟨encrypt_none_iff pt pk, (encrypt_none_iff _ pk).mpr (by decide)⟩

/-- C5 (counterexample): with `w = [2,3,6,13,27]`, `q = 59`, `r = 31`, the
public key the code computes (`beta[i] = w[i]*31 % 59`) is `[3, 34, 9, 49, 11]`,
not the `[4, 34, 9, 53, 47]` the claim asserts (`2*31 % 59 = 3 ≠ 4`). -/
theorem concrete_scenario_beta_mismatch :
    public_key_of [2, 3, 6, 13, 27] 31 59 = [3, 34, 9, 49, 11] ∧
    public_key_of [2, 3, 6, 13, 27] 31 59 ≠ [4, 34, 9, 53, 47] := by decide

/-- C5 (amended): with `w = [2,3,6,13,27]`, `q = 59`, `r = 31`, the public key
is `[3, 34, 9, 49, 11]`; encrypting bit chunk `10101` yields `3+9+11 = 23`;
and the decryption steps (multiply by the inverse `40` of `31` mod `59`,
giving `35`, then solve the subset sum over `w`) recover the bits `10101`. -/
theorem concrete_scenario_correct :
    public_key_of [2, 3, 6, 13, 27] 31 59 = [3, 34, 9, 49, 11] ∧
    dot [true, false, true, false, true] (public_key_of [2, 3, 6, 13, 27] 31 59) = 23 ∧
    modInverse 31 59 = some 40 ∧
    23 * 40 % 59 = 35 ∧
    subset_sum_problem ([2, 3, 6, 13, 27] : List Int) 35 =
      [true, false, true, false, true] := by decide

/-- C8: for every list of integers `w` and every non-negative integer target,
`subset_sum_problem` returns a bit string of length exactly `len(w)`; it is a
total function over `List Bool`, so it terminates normally, produces only 0/1
bits, and raises no error even when the target is not an exact subset sum. -/
theorem subset_sum_problem_length (w : List Int) (target : Int) (_ht : 0 ≤ target) :
    (subset_sum_problem w target).length = w.length := by
  unfold subset_sum_problem
  rw [subset_go_length]
  simp

theorem subset_sum_problem_length_witness :
    (0 : Int) ≤ 7 ∧
    (subset_sum_problem [5, -3, 12] 7).length = ([5, -3, 12] : List Int).length :=
  ⟨by decide, subset_sum_problem_length [5, -3, 12] 7 (by decide)⟩

/-- C9: there is a valid private key (`w = [2,3,6,13,27]` superincreasing,
`q = 59 > sum(w)`, `gcd(31, 59) = 1`) and a ciphertext block `38` whose
decryption recovers the 5-bit chunk `11011`, i.e. the value `27 > 26`; the
code-to-character table has no entry for any of 27–31, so `decrypt` hits a
`KeyError` (modelled by `none`) instead of returning a string. -/
theorem decrypt_keyError_on_large_chunk :
    Nat.gcd 31 59 = 1 ∧
    superincreasing ([2, 3, 6, 13, 27] : List Int) ∧
    2 + 3 + 6 + 13 + 27 < 59 ∧
    modInverse 31 59 = some 40 ∧
    38 * 40 % 59 = 45 ∧
    subset_sum_problem ([2, 3, 6, 13, 27] : List Int) 45 =
      [true, true, false, true, true] ∧
    fromBits [true, true, false, true, true] = 27 ∧
    int_to_char 27 = none ∧ int_to_char 28 = none ∧ int_to_char 29 = none ∧
    int_to_char 30 = none ∧ int_to_char 31 = none ∧
    decrypt [38] ([2, 3, 6, 13, 27], 59, 31) = none := by decide

/-- C10: decrypting the empty ciphertext under any valid private key (the
data model requires `q > sum(w)`, and `gcd(r, q) = 1` makes the modular
inverse exist) returns the empty string. -/
theorem decrypt_nil (w : List Nat) (q r : Nat) (hgcd : Nat.gcd r q = 1)
    (hq : w.sum < q) : decrypt [] (w, q, r) = some [] := by
  obtain ⟨x, hx, -⟩ := modInverse_spec r q (by omega) hgcd
  simp [decrypt, hx, chunkList, decode_loop]

theorem decrypt_nil_witness :
    Nat.gcd 3 4 = 1 ∧ List.sum [1, 2] < 4 ∧ decrypt [] ([1, 2], 4, 3) = some [] :=
  ⟨by decide, by decide, decrypt_nil [1, 2] 4 3 (by decide) (by decide)⟩

end KnapsackCrypto
